import Mathlib

/-!
Shallow embedding of the masof terminal-UI library (src/keyaction.rs,
src/readline.rs, src/renderer.rs) and proofs about its specification.

Rust `u16`/`u8`/`usize` values are modelled as `Nat` (no operation in the
verified paths reaches the wrap-around range).  Fallible operations —
Rust code that can panic, such as byte-slicing a `String` at a non-boundary
offset or indexing a `Vec` out of range — are modelled with `Option`,
`none` standing for the panic.
-/

/-! ## Key codes and events (crossterm re-exports used by the library) -/

/-- Key codes, mirroring the `crossterm::event::KeyCode` variants matched by
the source. -/
inductive KeyCode where
  | Backspace | Enter | Left | Right | Up | Down | Home | End
  | PageUp | PageDown | Tab | BackTab | Delete | Insert
  | F (i : Nat)
  | Char (c : Char)
  | Null | Esc
deriving DecidableEq

/-- The ctrl/alt/shift bits of `crossterm::event::KeyModifiers`
(`contains(CONTROL)` etc. modelled as the three fields). -/
structure KeyModifierFlags where
  ctrl : Bool
  alt : Bool
  shift : Bool
deriving DecidableEq

def KeyModifierFlags.none : KeyModifierFlags := ⟨false, false, false⟩

/-- A key event: code plus modifier flags. -/
structure KeyEvent where
  code : KeyCode
  modifiers : KeyModifierFlags
deriving DecidableEq

/-! ## ReadLine (src/readline.rs) -/

/-- `readline::Action`. -/
inductive RLAction where
  | BackDeleteChar | DeleteChar | LeftChar | LeftWord | RightChar | RightWord
  | DelBackWord | GotoLineStart | GotoLineEnd | InsertChar | Complete
deriving DecidableEq

/-- `readline::ReadLine` state.  `strval` is the `String` as its list of
codepoints; Rust byte offsets into it are recovered through `byteLen`,
`takeBytes` and `dropBytes` below. -/
structure RLState where
  cursor : Nat
  h_scroll : Nat
  strval : List Char
deriving DecidableEq

/-- Rust `String::len`: the UTF-8 byte length. -/
def byteLen (l : List Char) : Nat := (l.map Char.utf8Size).sum

/-- `ReadLine::cursor()` (the private method): `min(self.cursor, strval.len())`
— note the clamp is against the *byte* length. -/
def clampedCursor (s : RLState) : Nat := min s.cursor (byteLen s.strval)

/-- Rust `&s[..n]`: the prefix of `s` occupying exactly `n` bytes.
`none` models the panic when `n` is not a character boundary or exceeds the
string's byte length. -/
def takeBytes : List Char → Nat → Option (List Char)
  | _, 0 => some []
  | [], _ + 1 => none
  | c :: rest, n + 1 =>
    if c.utf8Size ≤ n + 1 then (takeBytes rest (n + 1 - c.utf8Size)).map (c :: ·)
    else none

/-- Rust `&s[n..]`: the suffix after the first `n` bytes; `none` models the
panic on a non-boundary or out-of-range offset. -/
def dropBytes : List Char → Nat → Option (List Char)
  | l, 0 => some l
  | [], _ + 1 => none
  | c :: rest, n + 1 =>
    if c.utf8Size ≤ n + 1 then dropBytes rest (n + 1 - c.utf8Size) else none

/-- The first `while` loop of `ReadLine::left_word_offset`: starting at index
`c`, walk left while the character is a space, stopping at index 0 without
looking at it.  `none` models the panic of `v[cursor]` when the index is out
of range. -/
def skipSpacesLeft (v : List Char) : Nat → Option Nat
  | 0 => some 0
  | c + 1 =>
    match v.get? (c + 1) with
    | none => Option.none
    | some ch => if ch == ' ' then skipSpacesLeft v c else some (c + 1)

/-- The second loop of `ReadLine::left_word_offset`: walk left over non-space
characters (bounds-checked), tracking the last non-space index visited. -/
def scanWordLeft (v : List Char) : Nat → Nat → Nat
  | 0, prev =>
    if h : 0 < v.length then (if v.get ⟨0, h⟩ != ' ' then 0 else prev) else prev
  | c + 1, prev =>
    if h : c + 1 < v.length then
      (if v.get ⟨c + 1, h⟩ != ' ' then scanWordLeft v c (c + 1) else prev)
    else prev

/-- `ReadLine::left_word_offset`.  Outer `Option` models panics; the inner
`Option` is the Rust return value. -/
def leftWordOffsetR (s : RLState) : Option (Option Nat) :=
  let v := s.strval
  let cursor := clampedCursor s
  if cursor > 0 then
    match skipSpacesLeft v (cursor - 1) with
    | Option.none => Option.none
    | some p => some (some (scanWordLeft v p p))
  else some Option.none

/-- A bounds-checked rightward walk: advance while the character-is-space test
equals `b`.  Implements both loops of `ReadLine::right_word_offset`. -/
def skipWhileRight (v : List Char) (b : Bool) (c : Nat) : Nat :=
  if h : c < v.length then
    if (v.get ⟨c, h⟩ == ' ') = b then skipWhileRight v b (c + 1) else c
  else c
termination_by v.length - c

/-- `ReadLine::right_word_offset` (cannot panic: all indexing is guarded). -/
def rightWordOffsetR (s : RLState) : Option Nat :=
  let v := s.strval
  let cursor := clampedCursor s
  if cursor < v.length then
    some (skipWhileRight v true (skipWhileRight v false cursor))
  else Option.none

/-- `ReadLine::apply_action`.  `none` models a panic (byte-slicing at a
non-boundary offset). -/
def applyAction (s : RLState) (action : RLAction) (event : KeyEvent) :
    Option RLState :=
  match action with
  | .InsertChar =>
    match event.code with
    | .Char c =>
      let cursor := clampedCursor s
      match takeBytes s.strval cursor, dropBytes s.strval cursor with
      | some pre, some suf =>
        some { s with strval := pre ++ c :: suf, cursor := s.cursor + 1 }
      | _, _ => Option.none
    | _ => some s
  | .BackDeleteChar =>
    let cursor := clampedCursor s
    if cursor > 0 then
      match takeBytes s.strval (cursor - 1), dropBytes s.strval cursor with
      | some pre, some suf =>
        some { s with strval := pre ++ suf, cursor := cursor - 1 }
      | _, _ => Option.none
    else some s
  | .DeleteChar =>
    let cursor := clampedCursor s
    if cursor < byteLen s.strval then
      match takeBytes s.strval cursor, dropBytes s.strval (cursor + 1) with
      | some pre, some suf =>
        some { s with strval := pre ++ suf,
                      cursor := min s.cursor (byteLen (pre ++ suf)) }
      | _, _ => Option.none
    else some s
  | .LeftChar =>
    let cursor := clampedCursor s
    if cursor > 0 then some { s with cursor := cursor - 1 } else some s
  | .LeftWord =>
    match leftWordOffsetR s with
    | Option.none => Option.none
    | some Option.none => some s
    | some (some c) => some { s with cursor := c }
  | .RightWord =>
    match rightWordOffsetR s with
    | Option.none => some s
    | some c => some { s with cursor := c }
  | .DelBackWord =>
    let curCursor := clampedCursor s
    match leftWordOffsetR s with
    | Option.none => Option.none
    | some Option.none => some s
    | some (some c) =>
      match takeBytes s.strval c, dropBytes s.strval curCursor with
      | some pre, some suf =>
        some { s with strval := pre ++ suf, cursor := c }
      | _, _ => Option.none
  | .GotoLineStart => some { s with cursor := 0 }
  | .GotoLineEnd => some { s with cursor := byteLen s.strval }
  | .RightChar =>
    some { s with cursor := min (clampedCursor s + 1) (byteLen s.strval) }
  | .Complete => some s

/-- `ReadLine::new`. -/
def rlNew : RLState := { cursor := 0, h_scroll := 0, strval := [] }

/-- `ReadLine::get_cursor`: `cursor - h_scroll` (u16 subtraction; in every
reachable state `h_scroll = 0`, so no underflow arises). -/
def getCursorRL (s : RLState) : Nat := s.cursor - s.h_scroll

/-- Apply a sequence of resolved actions, propagating panics. -/
def applyActions (s : RLState) : List (RLAction × KeyEvent) → Option RLState
  | [] => some s
  | (a, e) :: rest =>
    match applyAction s a e with
    | Option.none => Option.none
    | some s2 => applyActions s2 rest

/-- The spec-side description of `LeftWord` (§4.4): from the prefix left of
the cursor, strip the trailing run of spaces, then the trailing run of
non-spaces; the new cursor is the length of what remains. -/
def leftWordSpec (v : List Char) (cursor : Nat) : Nat :=
  (((v.take cursor).reverse.dropWhile (fun ch => ch == ' ')).dropWhile
    (fun ch => ch != ' ')).length

/-! ## Renderer (src/renderer.rs) -/

/-- `crossterm::style::Color` (the variants this library can produce). -/
inductive Color where
  | Reset | Black | Red | Green | Yellow | Blue | Magenta | Cyan | White
  | AnsiValue (v : Nat)
  | Rgb (r g b : Nat)
deriving DecidableEq

/-- `crossterm::style::ContentStyle`; the attribute bitset is modelled as a
`Nat`. -/
structure ContentStyle where
  background_color : Option Color
  foreground_color : Option Color
  attributes : Nat
deriving DecidableEq

def defaultStyle : ContentStyle :=
  { background_color := Option.none, foreground_color := Option.none,
    attributes := 0 }

/-- Modelled from the spec: the character display width.  The width comes
from the `unicode-width` dependency (`c.width().unwrap_or(1)`), which is not
part of this repository; §3 fixes `display_width ∈ {1,2}` and the Glossary
defines wide characters as those of East Asian scripts, so wide-range
codepoints get width 2 and everything else width 1. -/
def isWideChar (c : Char) : Bool :=
  let n := c.toNat
  (0x1100 ≤ n && n ≤ 0x115F) || (0x2E80 ≤ n && n ≤ 0x303E) ||
  (0x3041 ≤ n && n ≤ 0x33FF) || (0x3400 ≤ n && n ≤ 0x4DBF) ||
  (0x4E00 ≤ n && n ≤ 0x9FFF) || (0xA000 ≤ n && n ≤ 0xA4CF) ||
  (0xAC00 ≤ n && n ≤ 0xD7A3) || (0xF900 ≤ n && n ≤ 0xFAFF) ||
  (0xFE30 ≤ n && n ≤ 0xFE4F) || (0xFF00 ≤ n && n ≤ 0xFF60) ||
  (0xFFE0 ≤ n && n ≤ 0xFFE6) || (0x20000 ≤ n && n ≤ 0x3FFFD)

def charWidth (c : Char) : Nat := if isWideChar c then 2 else 1

/-- `renderer::CellContent`. -/
structure CellContent where
  c : Char
  width : Nat
  style : ContentStyle
deriving DecidableEq

/-- `CellContent::new`. -/
def CellContent.make (c : Char) (style : ContentStyle) : CellContent :=
  { c := c, width := charWidth c, style := style }

/-- `renderer::Cell`. -/
inductive Cell where
  | Content (content : CellContent)
  | WideExtension
deriving DecidableEq

/-- `Cell::new`. -/
def Cell.make (c : Char) (style : ContentStyle) : Cell :=
  Cell.Content (CellContent.make c style)

def blankCell : Cell := Cell.make ' ' defaultStyle

/-- `renderer::VirtualBuffer`.  The grid is the list of rows. -/
structure VirtualBuffer where
  cells : List (List Cell)
  cursor : Option (Nat × Nat)
  width : Nat
  height : Nat
deriving DecidableEq

/-- `VirtualBuffer::new` — note the grid starts as a single 1×1 row
regardless of the requested dimensions (the library only ever calls it with
1×1). -/
def VirtualBuffer.make (width height : Nat) : VirtualBuffer :=
  { width := width, height := height, cells := [[blankCell]],
    cursor := Option.none }

/-- Rust `Vec::resize`: truncate or pad with copies of `v`. -/
def listResize (l : List α) (n : Nat) (v : α) : List α :=
  l.take n ++ List.replicate (n - l.length) v

/-- `VirtualBuffer::resize`: no-op when the dimensions are unchanged;
otherwise resize the row list to `height` rows and every row to `width`
cells. -/
def resizeB (b : VirtualBuffer) (width height : Nat) : VirtualBuffer :=
  if b.width = width ∧ b.height = height then b
  else
    { cells := (listResize b.cells height []).map
        (fun row => listResize row width blankCell),
      cursor := b.cursor, width := width, height := height }

/-- Write one cell of the grid (`cells[y][x] = cell`).  Rust panics when the
index is out of range; this is a no-op instead, and all lemmas that depend on
the write supply in-range hypotheses. -/
def setCell (cells : List (List Cell)) (y x : Nat) (cell : Cell) :
    List (List Cell) :=
  match cells.get? y with
  | Option.none => cells
  | some row => cells.set y (row.set x cell)

/-- Read one cell of a grid. -/
def getC (cells : List (List Cell)) (y x : Nat) : Option Cell :=
  (cells.get? y).bind (fun row => row.get? x)

/-- Read one cell of a buffer's grid. -/
def getCell (b : VirtualBuffer) (y x : Nat) : Option Cell :=
  getC b.cells y x

/-- `VirtualBuffer::clear`: the double loop writing a blank cell at every
`(y, x)` with `y < height`, `x < width`, and dropping the cursor. -/
def clearB (b : VirtualBuffer) : VirtualBuffer :=
  { b with
    cursor := Option.none,
    cells := (List.range b.height).foldl
      (fun cs y => (List.range b.width).foldl
        (fun cs2 x => setCell cs2 y x blankCell) cs)
      b.cells }

/-- The loop `for x in x+1..x+width` of `putchar`: write `n` WideExtension
cells in row `y` starting at column `start`. -/
def writeExts (cells : List (List Cell)) (y : Nat) :
    Nat → Nat → List (List Cell)
  | _, 0 => cells
  | start, n + 1 =>
    writeExts (setCell cells y start Cell.WideExtension) y (start + 1) n

/-- `VirtualBuffer::putchar`.  Returns the updated buffer and `some width` on
success, the untouched buffer and `none` when the character would cross the
right edge (`width + x > self.width`) or the row is out of range
(`y >= cells.len()`). -/
def putchar (b : VirtualBuffer) (x y : Nat) (c : Char) (style : ContentStyle) :
    VirtualBuffer × Option Nat :=
  let cc := CellContent.make c style
  if cc.width + x > b.width then (b, Option.none)
  else if b.cells.length ≤ y then (b, Option.none)
  else
    let cells1 := setCell b.cells y x (Cell.Content cc)
    let cells2 := writeExts cells1 y (x + 1) (cc.width - 1)
    ({ b with cells := cells2 }, some cc.width)

/-- `renderer::Config`. -/
inductive RConfig where
  | FullScreen
  | BottomScreen (lines : Nat) (position : Option (Nat × Nat))
deriving DecidableEq

/-- `renderer::Renderer`. -/
structure Renderer where
  term_size : Nat × Nat
  config : RConfig
  next : VirtualBuffer
  prev : VirtualBuffer
  full_refresh : Bool
deriving DecidableEq

/-- `Renderer::default`. -/
def rendererDefault : Renderer :=
  { term_size := (1, 1), config := RConfig.FullScreen,
    next := VirtualBuffer.make 1 1, prev := VirtualBuffer.make 1 1,
    full_refresh := true }

/-- The terminal commands `Renderer::end` queues. -/
inductive Cmd where
  | MoveTo (x y : Nat)
  | SetBg (c : Color)
  | SetFg (c : Color)
  | SetAttrs (a : Nat)
  | Print (c : Char)
  | CursorShow
  | CursorHide
deriving DecidableEq

/-- The `top_left` computation at the start of `Renderer::end`. -/
def topLeft (r : Renderer) : Nat × Nat :=
  match r.config with
  | RConfig.FullScreen => (0, 0)
  | RConfig.BottomScreen lines position =>
    let p := position.getD (0, 0)
    let l := min lines r.term_size.2
    (0, min (r.term_size.2 - l) p.2)

/-- Emitting one Content cell: a style-change command per differing aspect
(background, foreground, attributes) when the active style differs, then the
character; returns the new active style. -/
def emitCell (style : ContentStyle) (content : CellContent) :
    List Cmd × ContentStyle :=
  if style = content.style then ([Cmd.Print content.c], style)
  else
    ((if style.background_color ≠ content.style.background_color then
        [Cmd.SetBg (content.style.background_color.getD Color.Reset)]
      else []) ++
     (if style.foreground_color ≠ content.style.foreground_color then
        [Cmd.SetFg (content.style.foreground_color.getD Color.Reset)]
      else []) ++
     (if style.attributes ≠ content.style.attributes then
        [Cmd.SetAttrs content.style.attributes]
      else []) ++
     [Cmd.Print content.c], content.style)

/-- The inner `for x in 0..next.width` loop of `Renderer::end`:
WideExtension cells emit nothing.  (Rust indexes `cells[y][x]`; the
out-of-range case, impossible for well-formed buffers, contributes
nothing here.) -/
def emitRow (row : List Cell) (width : Nat) (style : ContentStyle) :
    List Cmd × ContentStyle :=
  (List.range width).foldl
    (fun acc x =>
      match row.get? x with
      | some (Cell.Content content) =>
        let r := emitCell acc.2 content
        (acc.1 ++ r.1, r.2)
      | _ => acc)
    ([], style)

/-- One iteration of the row loop of `Renderer::end`: a row identical in
`next` and `prev` is skipped unless `full_refresh` is set; otherwise a MoveTo
to the row start and the row's cell commands are emitted. -/
def emitRowStep (r : Renderer) (acc : List Cmd × ContentStyle) (y : Nat) :
    List Cmd × ContentStyle :=
  let nrow := r.next.cells.getD y []
  let prow := r.prev.cells.getD y []
  if nrow = prow ∧ r.full_refresh = false then acc
  else
    let rr := emitRow nrow r.next.width acc.2
    (acc.1 ++ (Cmd.MoveTo 0 ((topLeft r).2 + y) :: rr.1), rr.2)

/-- The row loop of `Renderer::end`.  The active style persists across
rows. -/
def emitRows (r : Renderer) : List Cmd × ContentStyle :=
  (List.range r.next.height).foldl (emitRowStep r) ([], defaultStyle)

/-- The cursor epilogue of `Renderer::end`: MoveTo + Show when `next.cursor`
is set, Hide when it is not. -/
def cursorCmds (r : Renderer) : List Cmd :=
  match r.next.cursor with
  | some p =>
    [Cmd.MoveTo (p.1 + (topLeft r).1) (p.2 + (topLeft r).2), Cmd.CursorShow]
  | Option.none => [Cmd.CursorHide]

/-- `Renderer::end`: the queued command stream, then clear `full_refresh` and
swap `next`/`prev`. -/
def endR (r : Renderer) : Renderer × List Cmd :=
  ({ r with full_refresh := false, next := r.prev, prev := r.next },
   (emitRows r).1 ++ cursorCmds r)

/-- `Renderer::on_resize`: record the terminal size, translate a BottomScreen
anchor when its clamped row moved, resize both buffers to the same effective
dimensions, and force a full refresh. -/
def onResize (r : Renderer) (x y : Nat) : Renderer :=
  let prevTerm := r.term_size
  let config2 : RConfig :=
    match r.config with
    | RConfig.FullScreen => RConfig.FullScreen
    | RConfig.BottomScreen lines position =>
      RConfig.BottomScreen lines
        (match position with
         | Option.none => Option.none
         | some p =>
           let l := min lines prevTerm.2
           let yy := min (prevTerm.2 - l) p.2
           if yy ≠ p.2 then some (p.1, p.2 + y - prevTerm.2) else some p)
  let y2 :=
    match r.config with
    | RConfig.FullScreen => y
    | RConfig.BottomScreen lines _ => min lines y
  { term_size := (x, y), config := config2,
    next := resizeB r.next x y2, prev := resizeB r.prev x y2,
    full_refresh := true }

/-- `Renderer::draw_str` acting on a buffer: `putchar` each character,
advancing by the consumed width, stopping at the first failure; returns the
total advance. -/
def drawStrB (b : VirtualBuffer) (x y : Nat) (st : ContentStyle) :
    List Char → VirtualBuffer × Nat
  | [] => (b, 0)
  | c :: rest =>
    match putchar b x y c st with
    | (b2, some w) =>
      let r := drawStrB b2 (x + w) y st rest
      (r.1, w + r.2)
    | (b2, Option.none) => (b2, 0)

/-- The Renderer operations a host can perform between frames (`event` with a
resize, `begin`, `draw_str`, `set_cursor`, `end`). -/
inductive ROp where
  | Resize (x y : Nat)
  | Begin
  | DrawStr (x y : Nat) (s : List Char) (st : ContentStyle)
  | SetCursor (c : Option (Nat × Nat))
  | Flush
deriving DecidableEq

/-- One Renderer operation. -/
def stepR (r : Renderer) : ROp → Renderer
  | ROp.Resize x y => onResize r x y
  | ROp.Begin => { r with next := clearB r.next }
  | ROp.DrawStr x y s st => { r with next := (drawStrB r.next x y st s).1 }
  | ROp.SetCursor c => { r with next := { r.next with cursor := c } }
  | ROp.Flush => (endR r).1

/-- Run a sequence of operations from the default Renderer. -/
def runOps (ops : List ROp) : Renderer := ops.foldl stepR rendererDefault

/-- The two frame buffers of a Renderer share their dimensions. -/
def buffersDimsEq (r : Renderer) : Prop :=
  r.next.width = r.prev.width ∧ r.next.height = r.prev.height

/-- Well-formed buffer: the grid really is `height` rows of `width` cells. -/
def WFBuf (b : VirtualBuffer) : Prop :=
  b.cells.length = b.height ∧ ∀ row ∈ b.cells, row.length = b.width

instance (b : VirtualBuffer) : Decidable (WFBuf b) := by
  unfold WFBuf; infer_instance

/-- Does some Content cell at `j < i` span column `i`, with only
WideExtension cells in between?  (The §3 invariant for one extension
cell.) -/
def extCovered (row : List Cell) (i : Nat) : Bool :=
  (List.range i).any (fun j =>
    match row.get? j with
    | some (Cell.Content cc) =>
      decide (i < j + cc.width) &&
      (List.range' (j + 1) (i - (j + 1))).all
        (fun k => decide (row.get? k = some Cell.WideExtension))
    | _ => false)

/-- The §3 row invariant: every WideExtension cell is covered by a preceding
Content cell whose display width spans it. -/
def rowWideInvariant (row : List Cell) : Bool :=
  (List.range row.length).all (fun i =>
    match row.get? i with
    | some Cell.WideExtension => extCovered row i
    | _ => true)

/-- The §3 invariant over all rows of a buffer. -/
def bufWideInvariant (b : VirtualBuffer) : Bool :=
  b.cells.all rowWideInvariant

/-! ## Key combination resolver (src/keyaction.rs) -/

/-- `keyaction::Modifiers`. -/
structure Modifiers where
  ctrl : Bool
  alt : Bool
  shift : Bool
deriving DecidableEq

/-- `Modifiers::default()`. -/
def noMods : Modifiers := { ctrl := false, alt := false, shift := false }

/-- `Modifiers::ctrl`. -/
def Modifiers.withCtrl (m : Modifiers) : Modifiers := { m with ctrl := true }

/-- `Modifiers::shift`. -/
def Modifiers.withShift (m : Modifiers) : Modifiers := { m with shift := true }

/-- `keyaction::KeyCombination`. -/
inductive KeyCombination where
  | Specific (code : KeyCode) (m : Modifiers)
  | AllChars (m : Modifiers)
deriving DecidableEq

/-- `KeyMap<A>`'s backing `HashMap`, modelled as its entry list; the list
order stands for the map's (unspecified) iteration order. -/
abbrev KeyMapL (A : Type) : Type := List (KeyCombination × A)

/-- `KeyMap::new`. -/
def kmNew (A : Type) : KeyMapL A := []

/-- `HashMap::insert`: replace the value of an existing key, otherwise add
the entry. -/
def mapInsert (m : KeyMapL A) (k : KeyCombination) (a : A) : KeyMapL A :=
  if m.any (fun e => e.1 == k) then
    m.map (fun e => if e.1 == k then (k, a) else e)
  else m ++ [(k, a)]

/-- `HashMap::get`. -/
def mapGet (m : KeyMapL A) (k : KeyCombination) : Option A :=
  (m.find? (fun e => e.1 == k)).map Prod.snd

/-- The Modifiers value `KeyMap::get_action` builds from the event's
ctrl/shift/alt flags. -/
def evModifiers (ev : KeyEvent) : Modifiers :=
  { ctrl := ev.modifiers.ctrl, shift := ev.modifiers.shift,
    alt := ev.modifiers.alt }

/-- `KeyMap::get_action`: look up the exact `Specific(code, modifiers)`
combination; if absent and the code is a character key, fall back to
`AllChars(modifiers)`; otherwise nothing. -/
def getAction (m : KeyMapL A) (ev : KeyEvent) : Option A :=
  let mods := evModifiers ev
  match mapGet m (KeyCombination.Specific ev.code mods) with
  | some a => some a
  | Option.none =>
    match ev.code with
    | KeyCode.Char _ => mapGet m (KeyCombination.AllChars mods)
    | _ => Option.none

/-- `KeyMap::add_no_mods`. -/
def addNoMods (m : KeyMapL A) (code : KeyCode) (a : A) : KeyMapL A :=
  mapInsert m (KeyCombination.Specific code noMods) a

/-- `KeyMap::add_ctrl`. -/
def addCtrl (m : KeyMapL A) (code : KeyCode) (a : A) : KeyMapL A :=
  mapInsert m (KeyCombination.Specific code noMods.withCtrl) a

/-- `KeyMap::add_shift`. -/
def addShift (m : KeyMapL A) (code : KeyCode) (a : A) : KeyMapL A :=
  mapInsert m (KeyCombination.Specific code noMods.withShift) a

/-- `KeyMap::add_char_no_handler`. -/
def addCharNoHandler (m : KeyMapL A) (a : A) : KeyMapL A :=
  mapInsert m (KeyCombination.AllChars noMods) a

/-- `KeyMap::add_char_shift`. -/
def addCharShift (m : KeyMapL A) (a : A) : KeyMapL A :=
  mapInsert m (KeyCombination.AllChars noMods.withShift) a

/-- A quoted character, e.g. the rendering of `Char('*')`. -/
def quoteChar (c : Char) : String :=
  String.singleton (Char.ofNat 39) ++ String.singleton c ++
    String.singleton (Char.ofNat 39)

/-- The `Display` rendering of a key code inside `Specific`. -/
def showKeyCode : KeyCode → String
  | KeyCode.Backspace => "Backspace"
  | KeyCode.Enter => "Enter"
  | KeyCode.Left => "Left"
  | KeyCode.Right => "Right"
  | KeyCode.Up => "Up"
  | KeyCode.Down => "Down"
  | KeyCode.Home => "Home"
  | KeyCode.End => "End"
  | KeyCode.PageUp => "PageUp"
  | KeyCode.PageDown => "PageDown"
  | KeyCode.Tab => "Tab"
  | KeyCode.BackTab => "BackTab"
  | KeyCode.Delete => "Delete"
  | KeyCode.Insert => "Insert"
  | KeyCode.F i => "F" ++ toString i
  | KeyCode.Char ' ' => "Space"
  | KeyCode.Char '*' => quoteChar '*'
  | KeyCode.Char ',' => quoteChar ','
  | KeyCode.Char ch => String.singleton ch
  | KeyCode.Null => "<null>"
  | KeyCode.Esc => "Esc"

/-- The `Display` rendering of a KeyCombination (`"C-" / "M-" / "S-"` prefix
flags then the key code; the wildcard renders as `"?"`). -/
def showCombination : KeyCombination → String
  | KeyCombination.Specific code m =>
    (if m.ctrl then "C-" else "") ++ (if m.alt then "M-" else "") ++
      (if m.shift then "S-" else "") ++ showKeyCode code
  | KeyCombination.AllChars _ => "?"

/-- `BTreeMap` insertion used by `describe`: keep the group list sorted by
action, appending the combination to an existing group. -/
def groupInsert [LinearOrder A] :
    List (A × List KeyCombination) → A → KeyCombination →
      List (A × List KeyCombination)
  | [], a, k => [(a, [k])]
  | (b, ks) :: rest, a, k =>
    if a < b then (a, [k]) :: (b, ks) :: rest
    else if a = b then (b, ks ++ [k]) :: rest
    else (b, ks) :: groupInsert rest a k

/-- The `action_to_keys` BTreeMap of `describe`, built by iterating the hash
map's entries in the given order. -/
def groupByAction [LinearOrder A] (entries : KeyMapL A) :
    List (A × List KeyCombination) :=
  entries.foldl (fun g e => groupInsert g e.2 e.1) []

/-- The `str_keys` loop of `describe`: Specific combinations render in
order; a wildcard contributes the `<char>` placeholder only when nothing has
been rendered yet. -/
def strKeys (ks : List KeyCombination) : List String :=
  ks.foldl
    (fun acc k =>
      match k with
      | KeyCombination.Specific _ _ => acc ++ [showCombination k]
      | KeyCombination.AllChars _ =>
        if acc = [] then acc ++ ["<char>"] else acc)
    []

/-- `format!("{:width$}", s)` with `width = 17`: pad right to 17 columns. -/
def padRight (s : String) (w : Nat) : String :=
  s ++ String.mk (List.replicate (w - s.length) ' ')

/-- One legend line of `describe`. -/
def describeLine (showAct : A → String) (a : A) (ks : List KeyCombination) :
    String :=
  "    " ++ padRight (String.intercalate " / " (strKeys ks)) 17 ++ "  - " ++
    showAct a ++ "\n"

/-- `KeyMap::describe` as a function of the hash map's entry iteration
order. -/
def describeList [LinearOrder A] (showAct : A → String) (entries : KeyMapL A) :
    String :=
  String.join ((groupByAction entries).map
    (fun g => describeLine showAct g.1 g.2)) ++ "\n"

/-! ## Concrete instances used by the theorems -/

/-- A 2-column character (U+4E2D, a CJK ideograph). -/
def wideChar : Char := Char.ofNat 0x4E2D

/-- A well-formed 4×1 buffer obtained through the library's own resize. -/
def bufEdge : VirtualBuffer := resizeB (VirtualBuffer.make 1 1) 4 1

/-- `bufEdge` after writing the wide character at column 0. -/
def bufWideLead : VirtualBuffer := (putchar bufEdge 0 0 wideChar defaultStyle).1

/-- `bufWideLead` after overwriting the wide lead column with a narrow
character. -/
def bufStale : VirtualBuffer := (putchar bufWideLead 0 0 'a' defaultStyle).1

/-- A 1×1 buffer with the cursor set, used for two identical frames. -/
def vbCursorSet : VirtualBuffer :=
  { cells := [[blankCell]], cursor := some (0, 0), width := 1, height := 1 }

/-- A Renderer whose `next` and `prev` frames are identical (same cells and
cursor) with `full_refresh` cleared. -/
def rendIdentical : Renderer :=
  { term_size := (1, 1), config := RConfig.FullScreen, next := vbCursorSet,
    prev := vbCursorSet, full_refresh := false }

/-- Two entry lists with the same map contents (a Specific binding for `x`
and an AllChars wildcard, both mapped to action `0`) in the two possible
iteration orders. -/
def entriesA : KeyMapL Nat :=
  [(KeyCombination.Specific (KeyCode.Char 'x') noMods, 0),
   (KeyCombination.AllChars noMods, 0)]

def entriesB : KeyMapL Nat := entriesA.reverse

/-- The ReadLine state of the word-motion example: text `"ab  cd ef"`,
cursor at 9. -/
def rlWords : RLState :=
  { cursor := 9, h_scroll := 0, strval := "ab  cd ef".toList }

/-- A ctrl-Left key event (the default binding for LeftWord). -/
def evCtrlLeft : KeyEvent :=
  { code := KeyCode.Left, modifiers := { ctrl := true, alt := false, shift := false } }

/-! ## Theorems -/

/-- C8: starting from text `"hello"` with cursor 5, `BackDeleteChar` followed
by `InsertChar('o')` restores text `"hello"` and cursor 5 — the two actions
compose to the identity on this state. -/
theorem readline_round_trip :
    applyActions { cursor := 5, h_scroll := 0, strval := "hello".toList }
      [(RLAction.BackDeleteChar,
        { code := KeyCode.Backspace, modifiers := KeyModifierFlags.none }),
       (RLAction.InsertChar,
        { code := KeyCode.Char 'o', modifiers := KeyModifierFlags.none })] =
      some { cursor := 5, h_scroll := 0, strval := "hello".toList } := by
  decide

/-- C3: the ReadLine cursor is *not* a codepoint index — `apply_action`
slices the string at byte offsets.  Inserting `'é'` (a 2-byte character, so
the cursor value 1 lands inside its encoding) and then inserting `'a'` makes
the slice `&strval[..1]` split the character: the code panics (modelled as
`none`), contradicting the claim that actions never split a multi-byte
character and never fail. -/
theorem readline_multibyte_insert_panics :
    applyActions rlNew
      [(RLAction.InsertChar,
        { code := KeyCode.Char (Char.ofNat 233),
          modifiers := KeyModifierFlags.none }),
       (RLAction.InsertChar,
        { code := KeyCode.Char 'a', modifiers := KeyModifierFlags.none })] =
      Option.none := by
  decide

/-- C5 counterexample: `putchar` does not preserve the WideExtension
invariant.  On a well-formed 4×1 buffer holding a wide character at columns
0–1, writing the narrow `'a'` at column 0 succeeds but leaves the orphaned
WideExtension cell at column 1, violating the §3 invariant. -/
theorem putchar_stale_extension_cex :
    bufWideInvariant bufWideLead = true ∧
    (putchar bufWideLead 0 0 'a' defaultStyle).2 = some 1 ∧
    bufWideInvariant bufStale = false ∧
    getCell bufStale 0 0 = some (Cell.Content (CellContent.make 'a' defaultStyle)) ∧
    getCell bufStale 0 1 = some Cell.WideExtension := by
  decide

/-- C2 counterexample: for two identical frames (same cells, same set
cursor) with `full_refresh` false, `end()` still emits a cursor MoveTo — the
cursor epilogue runs unconditionally whenever `next.cursor` is set. -/
theorem end_identical_frames_cursor_cex :
    rendIdentical.next = rendIdentical.prev ∧
    rendIdentical.full_refresh = false ∧
    (endR rendIdentical).2 = [Cmd.MoveTo 0 0, Cmd.CursorShow] := by
  decide

/-- C6 counterexample: two entry orders of the same map contents (they are
permutations of each other) make `describe` print different text — the
wildcard placeholder appears only when the AllChars entry is iterated before
any Specific one, so the output depends on the hash map's iteration order. -/
theorem describe_iteration_order_cex :
    entriesA.Perm entriesB ∧
    describeList (fun _ => "insert") entriesA ≠
      describeList (fun _ => "insert") entriesB := by
  decide

/-- Helper: a single `apply_action` never touches `h_scroll`. -/
theorem applyAction_h_scroll (s : RLState) (a : RLAction) (e : KeyEvent)
    (s2 : RLState) (h : applyAction s a e = some s2) :
    s2.h_scroll = s.h_scroll := by
  cases a <;> simp only [applyAction] at h <;> (repeat' split at h) <;>
    first
    | (injection h with h2; subst h2; rfl)
    | simp_all

/-- Helper: an action sequence never touches `h_scroll`. -/
theorem applyActions_h_scroll (l : List (RLAction × KeyEvent)) :
    ∀ (s s2 : RLState), applyActions s l = some s2 →
      s2.h_scroll = s.h_scroll := by
  induction l with
  | nil =>
    intro s s2 h
    simp only [applyActions] at h
    injection h with h2
    subst h2
    rfl
  | cons ae rest ih =>
    intro s s2 h
    obtain ⟨a, e⟩ := ae
    simp only [applyActions] at h
    cases hstep : applyAction s a e with
    | none => rw [hstep] at h; cases h
    | some s1 =>
      rw [hstep] at h
      exact (ih s1 s2 h).trans (applyAction_h_scroll s a e s1 hstep)

/-- C10: `h_scroll` is 0 in `new()`, no action modifies it, and in every
state reachable from `new()` by actions, `get_cursor()` returns exactly the
stored cursor. -/
theorem readline_h_scroll_constant :
    rlNew.h_scroll = 0 ∧
    (∀ (s : RLState) (a : RLAction) (e : KeyEvent) (s2 : RLState),
      applyAction s a e = some s2 → s2.h_scroll = s.h_scroll) ∧
    (∀ (l : List (RLAction × KeyEvent)) (s2 : RLState),
      applyActions rlNew l = some s2 →
        s2.h_scroll = 0 ∧ getCursorRL s2 = s2.cursor) := by
  refine ⟨rfl, applyAction_h_scroll, ?_⟩
  intro l s2 h
  have h0 : s2.h_scroll = 0 := applyActions_h_scroll l rlNew s2 h
  refine ⟨h0, ?_⟩
  unfold getCursorRL
  omega

/-- Witness for C10 at the concrete run inserting one character from
`new()`. -/
theorem readline_h_scroll_constant_witness :
    ({ cursor := 1, h_scroll := 0, strval := ['a'] } : RLState).h_scroll = 0 ∧
    getCursorRL { cursor := 1, h_scroll := 0, strval := ['a'] } =
      ({ cursor := 1, h_scroll := 0, strval := ['a'] } : RLState).cursor :=
  readline_h_scroll_constant.2.2
    [(RLAction.InsertChar,
      { code := KeyCode.Char 'a', modifiers := KeyModifierFlags.none })]
    { cursor := 1, h_scroll := 0, strval := ['a'] } (by decide)

/-- Helper: `putchar` never changes the buffer width. -/
theorem putchar_width (b : VirtualBuffer) (x y : Nat) (c : Char)
    (st : ContentStyle) : (putchar b x y c st).1.width = b.width := by
  simp only [putchar]
  split
  · rfl
  · split <;> rfl

/-- Helper: `putchar` never changes the buffer height. -/
theorem putchar_height (b : VirtualBuffer) (x y : Nat) (c : Char)
    (st : ContentStyle) : (putchar b x y c st).1.height = b.height := by
  simp only [putchar]
  split
  · rfl
  · split <;> rfl

/-- Helper: `resize` always leaves the requested width. -/
theorem resizeB_width (b : VirtualBuffer) (w h : Nat) :
    (resizeB b w h).width = w := by
  unfold resizeB; split
  · exact (by assumption : b.width = w ∧ b.height = h).1
  · rfl

/-- Helper: `resize` always leaves the requested height. -/
theorem resizeB_height (b : VirtualBuffer) (w h : Nat) :
    (resizeB b w h).height = h := by
  unfold resizeB; split
  · exact (by assumption : b.width = w ∧ b.height = h).2
  · rfl

/-- Helper: `draw_str` never changes the buffer dimensions. -/
theorem drawStrB_dims (y : Nat) (st : ContentStyle) :
    ∀ (s : List Char) (b : VirtualBuffer) (x : Nat),
      (drawStrB b x y st s).1.width = b.width ∧
      (drawStrB b x y st s).1.height = b.height := by
  intro s
  induction s with
  | nil => intro b x; exact ⟨rfl, rfl⟩
  | cons c rest ih =>
    intro b x
    simp only [drawStrB]
    cases hp : putchar b x y c st with
    | mk b2 o =>
      have hw : b2.width = b.width := by
        have hq := putchar_width b x y c st; rw [hp] at hq; exact hq
      have hh : b2.height = b.height := by
        have hq := putchar_height b x y c st; rw [hp] at hq; exact hq
      cases o with
      | none => exact ⟨hw, hh⟩
      | some w =>
        obtain ⟨iw, ihh⟩ := ih b2 (x + w)
        exact ⟨iw.trans hw, ihh.trans hh⟩

/-- Helper: every Renderer operation preserves the shared dimensions of the
two buffers. -/
theorem stepR_dims (r : Renderer) (op : ROp) (hr : buffersDimsEq r) :
    buffersDimsEq (stepR r op) := by
  obtain ⟨hw, hh⟩ := hr
  cases op with
  | Resize x y =>
    refine ⟨?_, ?_⟩ <;> simp only [stepR, onResize]
    · rw [resizeB_width, resizeB_width]
    · rw [resizeB_height, resizeB_height]
  | Begin => exact ⟨hw, hh⟩
  | DrawStr x y s st =>
    obtain ⟨dw, dh⟩ := drawStrB_dims y st s r.next x
    exact ⟨dw.trans hw, dh.trans hh⟩
  | SetCursor c => exact ⟨hw, hh⟩
  | Flush => exact ⟨hw.symm, hh.symm⟩

/-- C9: in every Renderer state reachable from the default state by resizes,
begins, draw calls, cursor updates and flushes, the `next` and `prev`
buffers have identical width and height. -/
theorem renderer_buffers_same_dims (ops : List ROp) :
    (runOps ops).next.width = (runOps ops).prev.width ∧
    (runOps ops).next.height = (runOps ops).prev.height := by
  suffices hgen : ∀ (l : List ROp) (r : Renderer),
      buffersDimsEq r → buffersDimsEq (l.foldl stepR r) by
    exact hgen ops rendererDefault ⟨rfl, rfl⟩
  intro l
  induction l with
  | nil => intro r hr; exact hr
  | cons op rest ih => intro r hr; exact ih (stepR r op) (stepR_dims r op hr)

/-- C4: `get_action` resolves the exact `Specific(code, modifiers)` binding
first; only when it is absent and the code is a character key does it fall
back to `AllChars(modifiers)`; with neither it returns nothing.  The final
conjunct is the concrete priority instance: with both a
`Specific(Char('a'), no-mods)` binding (action 0) and an `AllChars(no-mods)`
binding (action 1), the event for `'a'` resolves to action 0. -/
theorem get_action_priority :
    (∀ (A : Type) (m : KeyMapL A) (ev : KeyEvent) (a : A),
      mapGet m (KeyCombination.Specific ev.code (evModifiers ev)) = some a →
      getAction m ev = some a) ∧
    (∀ (A : Type) (m : KeyMapL A) (ev : KeyEvent) (c : Char),
      ev.code = KeyCode.Char c →
      mapGet m (KeyCombination.Specific ev.code (evModifiers ev)) = Option.none →
      getAction m ev = mapGet m (KeyCombination.AllChars (evModifiers ev))) ∧
    (∀ (A : Type) (m : KeyMapL A) (ev : KeyEvent),
      mapGet m (KeyCombination.Specific ev.code (evModifiers ev)) = Option.none →
      (∀ c : Char, ev.code ≠ KeyCode.Char c) →
      getAction m ev = Option.none) ∧
    getAction (addCharNoHandler (addNoMods (kmNew Nat) (KeyCode.Char 'a') 0) 1)
      { code := KeyCode.Char 'a', modifiers := KeyModifierFlags.none } =
      some 0 := by
  refine ⟨?_, ?_, ?_, by decide⟩
  · intro A m ev a h
    simp [getAction, h]
  · intro A m ev c hc h
    rw [hc] at h
    simp [getAction, hc, h]
  · intro A m ev h hnc
    obtain ⟨code, mods⟩ := ev
    cases code <;> simp_all [getAction]

/-- Witness for C4 at a concrete one-binding map. -/
theorem get_action_priority_witness :
    mapGet (addNoMods (kmNew Nat) (KeyCode.Char 'b') 5)
      (KeyCombination.Specific
        ({ code := KeyCode.Char 'b',
           modifiers := KeyModifierFlags.none } : KeyEvent).code
        (evModifiers
          { code := KeyCode.Char 'b',
            modifiers := KeyModifierFlags.none })) = some 5 ∧
    getAction (addNoMods (kmNew Nat) (KeyCode.Char 'b') 5)
      { code := KeyCode.Char 'b', modifiers := KeyModifierFlags.none } =
      some 5 :=
  ⟨by decide,
   get_action_priority.1 Nat (addNoMods (kmNew Nat) (KeyCode.Char 'b') 5)
     { code := KeyCode.Char 'b', modifiers := KeyModifierFlags.none } 5
     (by decide)⟩

/-- Helper: a fold whose step never changes the accumulator returns it. -/
theorem foldl_id_of_step_id {α β : Type} (f : β → α → β)
    (h : ∀ b a, f b a = b) : ∀ (l : List α) (b : β), l.foldl f b = b := by
  intro l
  induction l with
  | nil => intro b; rfl
  | cons a rest ih => intro b; rw [List.foldl_cons, h b a]; exact ih b

/-- C2 (amended): when the two frames have identical cell content and
`full_refresh` is false, `end()` emits no row-repaint commands — its whole
output is the unconditional cursor epilogue (MoveTo + Show when the cursor
is set, Hide when it is not). -/
theorem end_skips_identical_rows (r : Renderer)
    (hfr : r.full_refresh = false) (hcells : r.next.cells = r.prev.cells) :
    (endR r).2 = cursorCmds r := by
  have hstep : ∀ (acc : List Cmd × ContentStyle) (y : Nat),
      emitRowStep r acc y = acc := by
    intro acc y
    unfold emitRowStep
    rw [hcells]
    simp [hfr]
  have hrows : (emitRows r).1 = [] := by
    unfold emitRows
    rw [foldl_id_of_step_id (emitRowStep r) hstep]
  unfold endR
  rw [hrows]
  rfl

/-- Witness for the amended C2 at the identical-frames Renderer. -/
theorem end_skips_identical_rows_witness :
    (endR rendIdentical).2 = cursorCmds rendIdentical :=
  end_skips_identical_rows rendIdentical (by decide) (by decide)

/-- Helper: writing a cell leaves every other position unchanged. -/
theorem getC_setCell_ne (cells : List (List Cell)) (y x : Nat) (cell : Cell)
    (y2 x2 : Nat) (h : y2 ≠ y ∨ x2 ≠ x) :
    getC (setCell cells y x cell) y2 x2 = getC cells y2 x2 := by
  unfold setCell
  cases hrow : cells.get? y with
  | none => rfl
  | some row =>
    unfold getC
    rcases h with hy | hx
    · rw [List.get?_set_ne _ _ (fun hq => hy hq.symm)]
    · by_cases hy : y2 = y
      · subst hy
        have hlt : y2 < cells.length := List.get?_eq_some.mp hrow |>.1
        rw [List.get?_set_eq_of_lt _ hlt, hrow]
        simp only [Option.bind_some, Option.bind]
        rw [List.get?_set_ne _ _ (fun hq => hx hq.symm)]
      · rw [List.get?_set_ne _ _ (fun hq => hy hq.symm)]

/-- Helper: an in-range cell write is visible at its position. -/
theorem getC_setCell_self (cells : List (List Cell)) (y x : Nat) (cell : Cell)
    (row : List Cell) (hrow : cells.get? y = some row) (hx : x < row.length) :
    getC (setCell cells y x cell) y x = some cell := by
  unfold setCell
  rw [hrow]
  unfold getC
  have hlt : y < cells.length := List.get?_eq_some.mp hrow |>.1
  rw [List.get?_set_eq_of_lt _ hlt]
  simp only [Option.bind]
  rw [List.get?_set_eq_of_lt _ hx]

/-- Helper: the row written by `setCell`. -/
theorem setCell_row (cells : List (List Cell)) (y x : Nat) (cell : Cell)
    (row : List Cell) (hrow : cells.get? y = some row) :
    (setCell cells y x cell).get? y = some (row.set x cell) := by
  unfold setCell
  rw [hrow]
  have hlt : y < cells.length := List.get?_eq_some.mp hrow |>.1
  rw [List.get?_set_eq_of_lt _ hlt]

/-- Helper: the extension loop leaves positions outside its span
unchanged. -/
theorem getC_writeExts_out (y : Nat) :
    ∀ (n : Nat) (cells : List (List Cell)) (start y2 x2 : Nat),
      (y2 ≠ y ∨ x2 < start ∨ start + n ≤ x2) →
      getC (writeExts cells y start n) y2 x2 = getC cells y2 x2 := by
  intro n
  induction n with
  | zero => intro cells start y2 x2 _; rfl
  | succ n ih =>
    intro cells start y2 x2 h
    simp only [writeExts]
    have hside : y2 ≠ y ∨ x2 < start + 1 ∨ (start + 1) + n ≤ x2 := by
      rcases h with h | h | h
      · exact Or.inl h
      · exact Or.inr (Or.inl (by omega))
      · exact Or.inr (Or.inr (by omega))
    rw [ih (setCell cells y start Cell.WideExtension) (start + 1) y2 x2 hside]
    apply getC_setCell_ne
    rcases h with h | h | h
    · exact Or.inl h
    · exact Or.inr (by omega)
    · exact Or.inr (by omega)

/-- Helper: inside its span (and in range) the extension loop writes
WideExtension cells. -/
theorem getC_writeExts_in (y : Nat) :
    ∀ (n : Nat) (cells : List (List Cell)) (start x2 : Nat) (row : List Cell),
      cells.get? y = some row → start + n ≤ row.length →
      start ≤ x2 → x2 < start + n →
      getC (writeExts cells y start n) y x2 = some Cell.WideExtension := by
  intro n
  induction n with
  | zero => intro cells start x2 row _ _ hge hlt; omega
  | succ n ih =>
    intro cells start x2 row hrow hlen hge hlt
    simp only [writeExts]
    by_cases hx : x2 = start
    · subst hx
      rw [getC_writeExts_out y n _ (x2 + 1) y x2
        (Or.inr (Or.inl (by omega)))]
      exact getC_setCell_self cells y x2 Cell.WideExtension row hrow (by omega)
    · exact ih (setCell cells y start Cell.WideExtension) (start + 1) x2
        (row.set start Cell.WideExtension)
        (setCell_row cells y start Cell.WideExtension row hrow)
        (by simp only [List.length_set]; omega) (by omega) (by omega)

/-- Helper: every character has display width at least 1. -/
theorem charWidth_pos (c : Char) : 1 ≤ charWidth c := by
  unfold charWidth; split <;> omega

/-- C1: `putchar` returns nothing and leaves the buffer byte-for-byte
unchanged when the display width would cross the right edge or the row is
out of range; otherwise it writes a Content cell at `(x,y)`, a WideExtension
cell in each of the following `width-1` columns, and returns the consumed
width.  The closed conjunct is the wide-character edge: on a 4×1 buffer the
2-column character fails at column 3 (width−1) with the buffer unchanged and
succeeds at column 2 (width−2), occupying columns 2 and 3. -/
theorem putchar_clip_and_write :
    (∀ (b : VirtualBuffer) (x y : Nat) (c : Char) (st : ContentStyle),
      WFBuf b →
      ((b.width < charWidth c + x ∨ b.height ≤ y) →
        putchar b x y c st = (b, Option.none)) ∧
      (charWidth c + x ≤ b.width → y < b.height →
        (putchar b x y c st).2 = some (charWidth c) ∧
        getCell (putchar b x y c st).1 y x =
          some (Cell.Content (CellContent.make c st)) ∧
        (∀ i, 1 ≤ i → i < charWidth c →
          getCell (putchar b x y c st).1 y (x + i) =
            some Cell.WideExtension))) ∧
    (putchar bufEdge 3 0 wideChar defaultStyle = (bufEdge, Option.none) ∧
     (putchar bufEdge 2 0 wideChar defaultStyle).2 = some 2 ∧
     getCell (putchar bufEdge 2 0 wideChar defaultStyle).1 0 2 =
       some (Cell.Content (CellContent.make wideChar defaultStyle)) ∧
     getCell (putchar bufEdge 2 0 wideChar defaultStyle).1 0 3 =
       some Cell.WideExtension) := by
  refine ⟨?_, by decide⟩
  intro b x y c st hwf
  have hcw : (CellContent.make c st).width = charWidth c := rfl
  constructor
  · intro hfail
    simp only [putchar]
    by_cases h1 : (CellContent.make c st).width + x > b.width
    · rw [if_pos h1]
    · have hy : b.cells.length ≤ y := by
        rw [hwf.1]
        rcases hfail with hf | hf
        · exfalso; rw [hcw] at h1; omega
        · exact hf
      rw [if_neg h1, if_pos hy]
  · intro hW hy
    have h1 : ¬ ((CellContent.make c st).width + x > b.width) := by
      rw [hcw]; omega
    have h2 : ¬ (b.cells.length ≤ y) := by rw [hwf.1]; omega
    cases hrow : b.cells.get? y with
    | none =>
      exfalso
      exact h2 (List.get?_eq_none.mp hrow)
    | some row =>
      have hrlen : row.length = b.width :=
        hwf.2 row (List.get?_mem hrow)
      have hwpos := charWidth_pos c
      simp only [putchar]
      rw [if_neg h1, if_neg h2]
      refine ⟨rfl, ?_, ?_⟩
      · show getC (writeExts (setCell b.cells y x
          (Cell.Content (CellContent.make c st))) y (x + 1)
          ((CellContent.make c st).width - 1)) y x = _
        rw [getC_writeExts_out y _ _ (x + 1) y x (Or.inr (Or.inl (by omega)))]
        exact getC_setCell_self b.cells y x _ row hrow (by rw [hcw] at *; omega)
      · intro i hi1 hi2
        show getC (writeExts (setCell b.cells y x
          (Cell.Content (CellContent.make c st))) y (x + 1)
          ((CellContent.make c st).width - 1)) y (x + i) = _
        refine getC_writeExts_in y _ _ (x + 1) (x + i)
          (row.set x (Cell.Content (CellContent.make c st)))
          (setCell_row b.cells y x _ row hrow) ?_ (by omega) ?_
        · simp only [List.length_set]
          rw [hcw] at *
          omega
        · rw [hcw] at *
          omega

/-- Witness for C1: the success branch at the concrete width−2 edge. -/
theorem putchar_clip_and_write_witness :
    (putchar bufEdge 2 0 wideChar defaultStyle).2 =
      some (charWidth wideChar) :=
  ((putchar_clip_and_write.1 bufEdge 2 0 wideChar defaultStyle
      (by decide)).2 (by decide) (by decide)).1

/-- C5 (amended): a successful `putchar` writes exactly columns
`x..x+width-1` of row `y` and leaves every other cell unchanged — in
particular it does not invalidate orphaned WideExtension cells to the right,
so a stale extension cell survives when a narrow character overwrites a wide
character's lead column. -/
theorem putchar_writes_only_span (b : VirtualBuffer) (x y : Nat) (c : Char)
    (st : ContentStyle) (b2 : VirtualBuffer) (w : Nat) (_hwf : WFBuf b)
    (hp : putchar b x y c st = (b2, some w)) :
    w = charWidth c ∧
    (∀ x2, x2 < x ∨ x + w ≤ x2 → getCell b2 y x2 = getCell b y x2) ∧
    (∀ y2, y2 ≠ y → ∀ x2, getCell b2 y2 x2 = getCell b y2 x2) := by
  have hcw : (CellContent.make c st).width = charWidth c := rfl
  simp only [putchar] at hp
  split at hp
  · cases hp
  · split at hp
    · cases hp
    · injection hp with hb ho
      injection ho with hw
      subst hb
      subst hw
      have hwpos := charWidth_pos c
      refine ⟨rfl, ?_, ?_⟩
      · intro x2 hx2
        show getC (writeExts (setCell b.cells y x
          (Cell.Content (CellContent.make c st))) y (x + 1)
          ((CellContent.make c st).width - 1)) y x2 = _
        have hout : y ≠ y ∨ x2 < x + 1 ∨
            (x + 1) + ((CellContent.make c st).width - 1) ≤ x2 := by
          rcases hx2 with h | h
          · exact Or.inr (Or.inl (by omega))
          · exact Or.inr (Or.inr (by rw [hcw] at *; omega))
        rw [getC_writeExts_out y _ _ (x + 1) y x2 hout]
        exact getC_setCell_ne b.cells y x _ y x2
          (Or.inr (by rw [hcw] at hx2; omega))
      · intro y2 hy2 x2
        show getC (writeExts (setCell b.cells y x
          (Cell.Content (CellContent.make c st))) y (x + 1)
          ((CellContent.make c st).width - 1)) y2 x2 = _
        rw [getC_writeExts_out y _ _ (x + 1) y2 x2 (Or.inl hy2)]
        exact getC_setCell_ne b.cells y x _ y2 x2 (Or.inl hy2)

/-- Witness for the amended C5: the narrow overwrite at the wide lead leaves
column 1 exactly as it was — the stale WideExtension. -/
theorem putchar_writes_only_span_witness :
    getCell bufStale 0 1 = getCell bufWideLead 0 1 :=
  (putchar_writes_only_span bufWideLead 0 0 'a' defaultStyle bufStale 1
      (by decide) (by decide)).2.1 1 (Or.inr (by omega))

/-- Helper: the action keys after a `groupInsert` are the old keys plus
possibly the inserted action. -/
theorem groupInsert_keys {A : Type} [LinearOrder A] :
    ∀ (g : List (A × List KeyCombination)) (a : A) (k : KeyCombination)
      (x : A), x ∈ (groupInsert g a k).map Prod.fst →
      x ∈ g.map Prod.fst ∨ x = a := by
  intro g
  induction g with
  | nil =>
    intro a k x hx
    simp [groupInsert] at hx
    exact Or.inr hx
  | cons p rest ih =>
    intro a k x hx
    obtain ⟨b, ks⟩ := p
    simp only [groupInsert] at hx
    split at hx
    · simp only [List.map_cons, List.mem_cons] at hx
      rcases hx with h | h | h
      · exact Or.inr h
      · exact Or.inl (by simp [h])
      · exact Or.inl (by simp [h])
    · split at hx
      · simp only [List.map_cons, List.mem_cons] at hx
        rcases hx with h | h
        · exact Or.inl (by simp [h])
        · exact Or.inl (by simp [h])
      · simp only [List.map_cons, List.mem_cons] at hx
        rcases hx with h | h
        · exact Or.inl (by simp [h])
        · rcases ih a k x h with h2 | h2
          · exact Or.inl (by simp [h2])
          · exact Or.inr h2

/-- Helper: `groupInsert` preserves strict sortedness of the action keys. -/
theorem groupInsert_sorted {A : Type} [LinearOrder A] :
    ∀ (g : List (A × List KeyCombination)) (a : A) (k : KeyCombination),
      (g.map Prod.fst).Sorted (· < ·) →
      ((groupInsert g a k).map Prod.fst).Sorted (· < ·) := by
  intro g
  induction g with
  | nil => intro a k _; simp [groupInsert]
  | cons p rest ih =>
    intro a k hs
    obtain ⟨b, ks⟩ := p
    rw [List.map_cons] at hs
    have hpair := List.sorted_cons.mp hs
    simp only [groupInsert]
    split
    · rw [List.map_cons, List.map_cons]
      apply List.sorted_cons.mpr
      refine ⟨?_, hs⟩
      intro x hx
      simp only [List.map_cons, List.mem_cons] at hx
      rcases hx with h | h
      · subst h; assumption
      · exact lt_trans (by assumption) (hpair.1 x h)
    · split
      · exact hs
      · rw [List.map_cons]
        apply List.sorted_cons.mpr
        refine ⟨?_, ih a k hpair.2⟩
        intro x hx
        rcases groupInsert_keys rest a k x hx with h | h
        · exact hpair.1 x h
        · subst h
          exact lt_of_le_of_ne (not_lt.mp (by assumption))
            (fun hq => (by assumption : ¬ (x = b)) hq.symm)

/-- C6 (amended): the action lines of `describe` do appear in strictly
ascending action order for *every* iteration order of the hash map's
entries — the deterministic part of the claim; the per-line combination
order and the `<char>` placeholder, by contrast, follow the iteration order
(see the counterexample). -/
theorem describe_actions_sorted (A : Type) [LinearOrder A]
    (entries : KeyMapL A) :
    ((groupByAction entries).map Prod.fst).Sorted (· < ·) := by
  suffices hgen : ∀ (l : KeyMapL A) (g : List (A × List KeyCombination)),
      (g.map Prod.fst).Sorted (· < ·) →
      ((l.foldl (fun g e => groupInsert g e.2 e.1) g).map
        Prod.fst).Sorted (· < ·) by
    exact hgen entries [] (by simp)
  intro l
  induction l with
  | nil => intro g hg; exact hg
  | cons e rest ih =>
    intro g hg
    exact ih (groupInsert g e.2 e.1) (groupInsert_sorted g e.2 e.1 hg)

/-- Helper: peeling the last element of a reversed prefix. -/
theorem rev_take_succ (v : List Char) (n : Nat) (h : n < v.length) :
    (v.take (n + 1)).reverse = v.get ⟨n, h⟩ :: (v.take n).reverse := by
  rw [List.take_succ, List.getElem?_eq_getElem h]
  simp [List.get_eq_getElem]

/-- Helper: dropping a run from a reversed prefix yields a shorter reversed
prefix whose last retained element refutes the predicate. -/
theorem dropWhile_reverse_take (p : Char → Bool) (v : List Char) :
    ∀ n, n ≤ v.length →
      (((v.take n).reverse.dropWhile p) =
        (v.take ((v.take n).reverse.dropWhile p).length).reverse) ∧
      ((v.take n).reverse.dropWhile p).length ≤ n ∧
      (∀ _ : 0 < ((v.take n).reverse.dropWhile p).length,
        ∃ ch, v.get? (((v.take n).reverse.dropWhile p).length - 1) = some ch ∧
          p ch = false) := by
  intro n
  induction n with
  | zero => intro _; simp
  | succ n ih =>
    intro hn
    have hlt : n < v.length := by omega
    obtain ⟨ih1, ih2, ih3⟩ := ih (by omega)
    rw [rev_take_succ v n hlt]
    by_cases hp : p (v.get ⟨n, hlt⟩)
    · rw [List.dropWhile_cons_of_pos hp]
      exact ⟨ih1, by omega, ih3⟩
    · rw [List.dropWhile_cons_of_neg hp]
      have hlen : (v.get ⟨n, hlt⟩ :: (v.take n).reverse).length = n + 1 := by
        simp [List.length_take]
        omega
      refine ⟨?_, by omega, ?_⟩
      · rw [hlen, ← rev_take_succ v n hlt]
      · intro _
        refine ⟨v.get ⟨n, hlt⟩, ?_, by simpa using hp⟩
        rw [hlen]
        simp [List.get?_eq_get hlt]

/-- Helper: the space-skipping loop lands one short of the length left after
dropping the trailing spaces of the prefix (and cannot panic in range). -/
theorem skipSpacesLeft_eq (v : List Char) :
    ∀ c, c < v.length →
      skipSpacesLeft v c =
        some ((((v.take (c + 1)).reverse).dropWhile
          (fun ch => ch == ' ')).length - 1) := by
  intro c
  induction c with
  | zero =>
    intro h
    rw [rev_take_succ v 0 h]
    simp only [List.take_zero, List.reverse_nil]
    by_cases hp : (v.get ⟨0, h⟩ == ' ') = true
    · have hpv : v[0] = ' ' := by simpa using hp
      simp [skipSpacesLeft, List.dropWhile_cons, hpv]
    · have hpv : ¬ v[0] = ' ' := by simpa using hp
      simp [skipSpacesLeft, List.dropWhile_cons, hpv]
  | succ c ih =>
    intro h
    have hc : c < v.length := by omega
    simp only [skipSpacesLeft, List.get?_eq_get h]
    rw [rev_take_succ v (c + 1) h]
    by_cases hp : (v.get ⟨c + 1, h⟩ == ' ') = true
    · rw [if_pos hp, ih hc]
      have hpv : v[c + 1] = ' ' := by simpa using hp
      have hstep : (List.dropWhile (fun ch => ch == ' ')
          (v.get ⟨c + 1, h⟩ :: (v.take (c + 1)).reverse)) =
          List.dropWhile (fun ch => ch == ' ') (v.take (c + 1)).reverse := by
        simp [List.dropWhile_cons, hpv]
      rw [hstep]
    · have hpv : ¬ v[c + 1] = ' ' := by simpa using hp
      rw [if_neg hp]
      have hstep : (List.dropWhile (fun ch => ch == ' ')
          (v.get ⟨c + 1, h⟩ :: (v.take (c + 1)).reverse)) =
          v.get ⟨c + 1, h⟩ :: (v.take (c + 1)).reverse := by
        simp [List.dropWhile_cons, hpv]
      rw [hstep]
      have hlen : (v.get ⟨c + 1, h⟩ :: (v.take (c + 1)).reverse).length
          = c + 2 := by
        simp [List.length_take]
        omega
      rw [hlen]
      exact congrArg some (by omega)

/-- Helper: the word scan started at 0 with accumulator 0 returns 0. -/
theorem scanWordLeft_zero_zero (v : List Char) : scanWordLeft v 0 0 = 0 := by
  simp only [scanWordLeft]
  split
  · split <;> rfl
  · rfl

/-- Helper: the word scan stops on a space. -/
theorem scanWordLeft_space (v : List Char) (c prev : Nat) (h : c < v.length)
    (hsp : v.get ⟨c, h⟩ = ' ') : scanWordLeft v c prev = prev := by
  cases c with
  | zero =>
    simp only [scanWordLeft]
    rw [dif_pos h, if_neg (by rw [hsp]; simp)]
  | succ n =>
    simp only [scanWordLeft]
    rw [dif_pos h, if_neg (by rw [hsp]; simp)]

/-- Helper: started on a non-space, the word scan lands at the length left
after dropping the trailing non-space run of the prefix. -/
theorem scanWordLeft_eq (v : List Char) :
    ∀ c, ∀ (h : c < v.length), (v.get ⟨c, h⟩ != ' ') = true → ∀ prev,
      scanWordLeft v c prev =
        ((v.take (c + 1)).reverse.dropWhile (fun ch => ch != ' ')).length := by
  intro c
  induction c with
  | zero =>
    intro h hnz prev
    simp only [scanWordLeft]
    rw [dif_pos h, if_pos hnz]
    rw [rev_take_succ v 0 h]
    simp only [List.take_zero, List.reverse_nil]
    have hnzv : ¬ v[0] = ' ' := by simpa using hnz
    simp [List.dropWhile_cons, hnzv]
  | succ c ih =>
    intro h hnz prev
    simp only [scanWordLeft]
    rw [dif_pos h, if_pos hnz]
    rw [rev_take_succ v (c + 1) h]
    have hnzv : ¬ v[c + 1] = ' ' := by simpa using hnz
    have hstep : (List.dropWhile (fun ch => ch != ' ')
        (v.get ⟨c + 1, h⟩ :: (v.take (c + 1)).reverse)) =
        List.dropWhile (fun ch => ch != ' ') (v.take (c + 1)).reverse := by
      simp [List.dropWhile_cons, hnzv]
    rw [hstep]
    have hc : c < v.length := by omega
    by_cases hsp : v.get ⟨c, hc⟩ = ' '
    · rw [scanWordLeft_space v c (c + 1) hc hsp]
      rw [rev_take_succ v c hc]
      have hspv : v[c] = ' ' := by simpa using hsp
      have hstop : (List.dropWhile (fun ch => ch != ' ')
          (v.get ⟨c, hc⟩ :: (v.take c).reverse)) =
          v.get ⟨c, hc⟩ :: (v.take c).reverse := by
        simp [List.dropWhile_cons, hspv]
      rw [hstop]
      simp [List.length_take]
      omega
    · have hnz2 : (v.get ⟨c, hc⟩ != ' ') = true := by
        simpa using hsp
      rw [ih hc hnz2 (c + 1)]

/-- Helper: the composition of the two loops computes the spec value. -/
theorem scanAfterSkip (v : List Char) (cursor : Nat)
    (h2 : cursor ≤ v.length) :
    scanWordLeft v
      (((v.take cursor).reverse.dropWhile (fun ch => ch == ' ')).length - 1)
      (((v.take cursor).reverse.dropWhile (fun ch => ch == ' ')).length - 1) =
    leftWordSpec v cursor := by
  obtain ⟨hd1, hd2, hd3⟩ :=
    dropWhile_reverse_take (fun ch => ch == ' ') v cursor h2
  unfold leftWordSpec
  by_cases hL0 : ((v.take cursor).reverse.dropWhile
      (fun ch => ch == ' ')).length = 0
  · rw [hL0, hd1, hL0]
    simp [scanWordLeft_zero_zero]
  · have hLpos : 0 < ((v.take cursor).reverse.dropWhile
        (fun ch => ch == ' ')).length := Nat.pos_of_ne_zero hL0
    obtain ⟨ch, hch, hpch⟩ := hd3 hLpos
    have hmlt : ((v.take cursor).reverse.dropWhile
        (fun ch => ch == ' ')).length - 1 < v.length :=
      (List.get?_eq_some.mp hch).1
    obtain ⟨hproof, hgetv⟩ := List.get?_eq_some.mp hch
    have hnz : (v.get ⟨((v.take cursor).reverse.dropWhile
        (fun ch => ch == ' ')).length - 1, hmlt⟩ != ' ') = true := by
      rw [show v.get ⟨_, hmlt⟩ = ch from hgetv]
      simp only [bne_iff_ne, ne_eq]
      intro hq
      rw [hq] at hpch
      simp at hpch
    rw [scanWordLeft_eq v _ hmlt hnz]
    have hsucc : ((v.take cursor).reverse.dropWhile
        (fun ch => ch == ' ')).length - 1 + 1 =
        ((v.take cursor).reverse.dropWhile
          (fun ch => ch == ' ')).length := by omega
    rw [hsucc, ← hd1]

/-- C7: `left_word_offset` implements the spec's LeftWord motion — skip the
run of spaces immediately left of the cursor, then the run of non-spaces
before it, landing at that run's start (stated via `leftWordSpec`, the
drop-trailing-spaces-then-trailing-word description).  The closed conjuncts
are the concrete instance: on `"ab  cd ef"` with cursor 9, LeftWord moves to
7, and again to 4. -/
theorem left_word_motion :
    (∀ s : RLState, 0 < clampedCursor s →
      clampedCursor s ≤ s.strval.length →
      leftWordOffsetR s =
        some (some (leftWordSpec s.strval (clampedCursor s)))) ∧
    (applyActions rlWords [(RLAction.LeftWord, evCtrlLeft)]).map
      RLState.cursor = some 7 ∧
    (applyActions rlWords
      [(RLAction.LeftWord, evCtrlLeft), (RLAction.LeftWord, evCtrlLeft)]).map
      RLState.cursor = some 4 := by
  refine ⟨?_, by decide, by decide⟩
  intro s h1 h2
  have hcm1 : clampedCursor s - 1 < s.strval.length := by omega
  have hplus : clampedCursor s - 1 + 1 = clampedCursor s := by omega
  simp only [leftWordOffsetR]
  rw [if_pos h1]
  rw [skipSpacesLeft_eq s.strval (clampedCursor s - 1) hcm1, hplus]
  show some (some (scanWordLeft s.strval _ _)) = _
  rw [scanAfterSkip s.strval (clampedCursor s) h2]

/-- Witness for C7: the general word-motion equation evaluated on the
example state. -/
theorem left_word_motion_witness :
    leftWordOffsetR rlWords =
      some (some (leftWordSpec rlWords.strval (clampedCursor rlWords))) :=
  left_word_motion.1 rlWords (by decide) (by decide)
